import Mathlib

/-!
Verification of the normalization core of the StreamlitDashboard repository:
the extract cleaner (`signet/cleaner.py`), the style-mapping merge
(`utils/memo_merge.py`) and the disposition normalizer
(`pages/10_Slow_Memo_Analysis.py`, `pages/2_Slow_Memo_Analysis.py`).

Tables are modelled row-wise: every dataframe operation used by this code is
element-wise per row, so a row-level (or list-of-rows-level) shallow embedding
is faithful.  Machine floats are modelled as `FpVal` (a rational, a signed
infinity, or NaN); the claims under study are about the NaN / infinity / zero
classification of values, which exact rationals capture.  String case
operations are modelled on the ASCII range, which covers every literal the
code manipulates.
-/

namespace StreamlitDash

/-- ASCII whitespace (space, tab, newline, carriage return, vertical tab,
form feed), as recognized by Python `str.strip()` and the regex class `\s`
(restricted to the ASCII range). -/
def isSpc (c : Char) : Bool :=
  c.toNat == 32 || c.toNat == 9 || c.toNat == 10 || c.toNat == 13 || c.toNat == 11 || c.toNat == 12

/-- ASCII lowercasing of one character (Python `str.lower`). -/
def toLowerC (c : Char) : Char :=
  if 65 ≤ c.toNat ∧ c.toNat ≤ 90 then Char.ofNat (c.toNat + 32) else c

/-- ASCII uppercasing of one character (Python `str.upper`). -/
def toUpperC (c : Char) : Char :=
  if 97 ≤ c.toNat ∧ c.toNat ≤ 122 then Char.ofNat (c.toNat - 32) else c

/-- Is `c` an ASCII letter? (Python's word detection in `str.title`.) -/
def isAlphaC (c : Char) : Bool :=
  (65 ≤ c.toNat && c.toNat ≤ 90) || (97 ≤ c.toNat && c.toNat ≤ 122)

/-- Drop the trailing run of characters satisfying `p`. -/
def dropTrail (p : Char → Bool) : List Char → List Char
  | [] => []
  | c :: cs =>
    let ds := dropTrail p cs
    if ds.isEmpty && p c then [] else c :: ds

/-- Python `s.strip(chars)`: remove the leading and the trailing run of
characters satisfying `p`. -/
def pyStrip (p : Char → Bool) (l : List Char) : List Char :=
  dropTrail p (l.dropWhile p)

/-- Python `s.strip()` / pandas `.str.strip()`: remove surrounding whitespace. -/
def stripWS (s : String) : String :=
  String.mk (pyStrip isSpc s.data)

/-- Python `s.lower()` (ASCII). -/
def lowerStr (s : String) : String :=
  String.mk (s.data.map toLowerC)

/-- Python `s.upper()` (ASCII). -/
def upperStr (s : String) : String :=
  String.mk (s.data.map toUpperC)

/-- `re.sub(r"\s+", " ", ·)` on a character list: the first whitespace of a
run becomes one space, the rest of the run is dropped; `inRun` records
whether the previous character was whitespace. -/
def collapseAux (inRun : Bool) : List Char → List Char
  | [] => []
  | c :: cs =>
    if isSpc c then
      if inRun then collapseAux true cs else ' ' :: collapseAux true cs
    else c :: collapseAux false cs

/-- `re.sub(r"\s+", " ", ·)`: every maximal whitespace run becomes a single
space. -/
def collapseWS (l : List Char) : List Char :=
  collapseAux false l

/-- One character of Python `str.title()`: a letter that starts a word is
uppercased, a letter inside a word is lowercased, anything else is kept;
`prev` records whether the previous character was a letter. -/
def titleChar (prev : Bool) (c : Char) : Char :=
  if isAlphaC c then (if prev then toLowerC c else toUpperC c) else c

/-- Python `str.title()` over a character list, carrying the in-word state. -/
def titleAux (prev : Bool) : List Char → List Char
  | [] => []
  | c :: cs => titleChar prev c :: titleAux (isAlphaC c) cs

/-- Python `s.title()`. -/
def titleStr (s : String) : String :=
  String.mk (titleAux false s.data)

/-- The list does not start with whitespace. -/
def noLead (l : List Char) : Bool :=
  match l with
  | [] => true
  | c :: _ => !isSpc c

/-- The list does not end with whitespace. -/
def noTrail : List Char → Bool
  | [] => true
  | [c] => !isSpc c
  | _ :: c :: cs => noTrail (c :: cs)

/-- Every whitespace character is a single space followed by non-whitespace
(the fixpoint condition of whitespace collapsing). -/
def spacesOk : List Char → Bool
  | [] => true
  | c :: cs => (!isSpc c || (decide (c = ' ') && noLead cs)) && spacesOk cs

/-- Every character is fixed by lowercasing. -/
def lowFixed (l : List Char) : Bool :=
  l.all (fun c => toLowerC c == c)

/-- Numeric value of an ASCII digit. -/
def digVal (c : Char) : Option ℕ :=
  if 48 ≤ c.toNat ∧ c.toNat ≤ 57 then some (c.toNat - 48) else none

/-- Value of a digit run (only applied to checked digit runs). -/
def digitsToNat (l : List Char) : ℕ :=
  l.foldl (fun a c => a * 10 + (c.toNat - 48)) 0

/-- Parse a plain decimal literal: optional sign, then digits with at most one
decimal point (at least one digit overall).  This is the fragment of
`pd.to_numeric` exercised by the cleaner's inputs; any other shape coerces to
missing. -/
def parseDec (s : String) : Option ℚ :=
  let (sign, l) : ℚ × List Char :=
    match s.data with
    | '-' :: t => (-1, t)
    | '+' :: t => (1, t)
    | t => (1, t)
  let intPart := l.takeWhile (fun c => (digVal c).isSome)
  let rest := l.dropWhile (fun c => (digVal c).isSome)
  match rest with
  | [] => if intPart.isEmpty then none else some (sign * (digitsToNat intPart : ℚ))
  | '.' :: frac =>
    if (intPart.isEmpty && frac.isEmpty) || !(frac.all (fun c => (digVal c).isSome)) then
      none
    else
      some (sign * ((digitsToNat intPart : ℚ) + (digitsToNat frac : ℚ) / (10 ^ frac.length)))
  | _ => none

/-- Value of a float cell: a finite rational, a signed infinity, or NaN.
NaN doubles as the missing marker of float columns. -/
inductive FpVal where
  | nan
  | inf
  | ninf
  | num (q : ℚ)
deriving DecidableEq

/-- IEEE float division of possibly-missing operands, as numpy performs it:
a missing operand propagates as NaN, division of a nonzero numerator by zero
gives a signed infinity, and 0/0 gives NaN.  No exception is ever raised. -/
def fpDiv : Option ℚ → Option ℚ → FpVal
  | some a, some b =>
    if b = 0 then (if 0 < a then .inf else if a < 0 then .ninf else .nan)
    else .num (a / b)
  | _, _ => .nan

namespace SignetCleaner

/-- One row of the raw extract after the `KEEP_COLS` projection and the
`RENAME_MAP` renaming of `signet/cleaner.py`; field names are the raw headers
(spaces written as underscores).  Each cell is a string or missing (`none`),
as delivered by the CSV/Excel reader. -/
structure RawRow where
  LOGO : Option String
  SKU : Option String
  DESCRIPTION : Option String
  NAME : Option String
  STYLE : Option String
  COST : Option String
  RETAIL : Option String
  MERCH_CATEGORY : Option String
  OWNERSHIP : Option String
  TY_UNITS : Option String
  TTL_OH_U : Option String
  LY_TTL_OH_U : Option String
  Store_TTL_Units : Option String
deriving DecidableEq

/-- `_normalize_money`: `astype(str)` (a missing cell prints as "nan"), strip
`$` and `,`, trim, map the placeholder tokens to missing, then
`pd.to_numeric(errors="coerce")`. -/
def normalizeMoney (c : Option String) : Option ℚ :=
  let t := stripWS (String.mk ((c.getD "nan").data.filter (fun d => d != '$' && d != ',')))
  if t = "" ∨ t = "nan" ∨ t = "NA" ∨ t = "N/A" then none else parseDec t

/-- `pd.to_numeric(-, errors="coerce")` on a raw cell (surrounding whitespace
is tolerated by the pandas parser). -/
def toNumericQ (c : Option String) : Option ℚ :=
  match c with
  | none => none
  | some s => parseDec (stripWS s)

/-- `.astype("Int64")` after `to_numeric`: missing stays missing, an integral
value casts, and a fractional value makes the whole `clean` call raise
(modelled by the outer `none`). -/
def castInt64 : Option ℚ → Option (Option ℤ)
  | none => some none
  | some q => if q.den = 1 then some (some q.num) else none

/-- One cleaned (canonical) record, as produced by `SignetCleaner.clean`. -/
structure CanonRow where
  logo : Option String
  sku : Option String
  description : Option String
  name : Option String
  style : Option String
  merch_category : Option String
  ownership : Option String
  cost : Option ℚ
  retail : Option ℚ
  margin_abs : Option ℚ
  margin_pct : FpVal
  sell_through : ℚ
  total_monthly_sales : ℤ
  total_on_hand_units : ℤ
  ly_total_on_hand_units : ℤ
  store_total_units : ℤ
deriving DecidableEq

/-- Row-level semantics of `SignetCleaner.clean` (`signet/cleaner.py`): money
normalization, dtype coercions, text trimming, the derived metrics computed
inside the `mode.use_inf_as_na` block (the option only alters NA *detection*,
never stored values, and nothing inside the block detects NAs of the derived
columns, so `margin_pct` keeps IEEE infinities), the zero-fill of the count
columns and of `sell_through`, and the final `df['sku'].str.strip('.0')`,
which strips the *character set* `{'.', '0'}` from both ends.  `none` models
the raise on a fractional value in an `Int64` column; the `KEEP_COLS` schema
check is captured by `RawRow` having exactly the kept columns. -/
def cleanRow (r : RawRow) : Option CanonRow :=
  match castInt64 (toNumericQ r.TY_UNITS), castInt64 (toNumericQ r.TTL_OH_U),
        castInt64 (toNumericQ r.LY_TTL_OH_U), castInt64 (toNumericQ r.Store_TTL_Units) with
  | some tms, some tohu, some lyo, some stu =>
    let cost := normalizeMoney r.COST
    let retail := normalizeMoney r.RETAIL
    let marginAbs : Option ℚ :=
      match retail, cost with
      | some a, some b => some (a - b)
      | _, _ => none
    let denom : Option ℤ := if tohu = some 0 then none else tohu
    let st : Option ℚ :=
      match tms, denom with
      | some a, some d => some ((a : ℚ) / (d : ℚ))
      | _, _ => none
    some {
      logo := r.LOGO.map stripWS
      sku := (r.SKU.map stripWS).map (fun s => String.mk (pyStrip (fun d => d == '.' || d == '0') s.data))
      description := r.DESCRIPTION.map stripWS
      name := r.NAME.map stripWS
      style := r.STYLE.map stripWS
      merch_category := r.MERCH_CATEGORY.map stripWS
      ownership := r.OWNERSHIP.map stripWS
      cost := cost
      retail := retail
      margin_abs := marginAbs
      margin_pct := fpDiv marginAbs retail
      sell_through := st.getD 0
      total_monthly_sales := tms.getD 0
      total_on_hand_units := tohu.getD 0
      ly_total_on_hand_units := lyo.getD 0
      store_total_units := stu.getD 0 }
  | _, _, _, _ => none

/-- `SignetCleaner.clean` on a whole raw table: every column operation of the
source is element-wise, and the `Int64` cast raises (whole-call failure) as
soon as any row has a fractional value in an integer column. -/
def clean : List RawRow → Option (List CanonRow)
  | [] => some []
  | r :: t =>
    match cleanRow r, clean t with
    | some c, some ct => some (c :: ct)
    | _, _ => none

/-- A cleaned row together with the `report_month` column that the CLI adds
before calling `dedupe_within_month`. -/
structure DRow where
  report_month : String
  row : CanonRow
deriving DecidableEq

/-- The `sku_filled` helper column: `d["sku"].fillna("")`. -/
def skuFilled (d : DRow) : String :=
  (d.row.sku).getD ""

/-- The stable-identifier deduplication key `["report_month", "sku"]`
(pandas `drop_duplicates` treats missing keys as equal, like `Option`). -/
def skuKey (d : DRow) : String × Option String :=
  (d.report_month, d.row.sku)

/-- The composite fallback key `["report_month", "style", "name", "logo"]`. -/
def compKey (d : DRow) : String × Option String × Option String × Option String :=
  (d.report_month, d.row.style, d.row.name, d.row.logo)

/-- `drop_duplicates(subset=key, keep="last")`: keep a row exactly when no
later row has the same key, preserving the original order of the kept rows. -/
def dropDupLast {α κ : Type} [DecidableEq κ] (key : α → κ) : List α → List α
  | [] => []
  | x :: xs =>
    if xs.any (fun y => decide (key y = key x)) then dropDupLast key xs
    else x :: dropDupLast key xs

/-- The key-selection condition of `dedupe_within_month`:
`not d["sku_filled"].eq("").all()`, i.e. the sku key is chosen as soon as at
least one row has a non-blank sku. -/
def usesSkuKey (t : List DRow) : Bool :=
  !(t.all (fun d => skuFilled d == ""))

/-- `SignetCleaner.dedupe_within_month`: choose the key for the whole table,
then drop duplicates keeping the last occurrence. -/
def dedupe_within_month (t : List DRow) : List DRow :=
  if usesSkuKey t then dropDupLast skuKey t else dropDupLast compKey t

/-- The key actually used for table `t`, injected into a common type so that
properties of the deduplicated table can be stated uniformly. -/
def dKey (t : List DRow) (d : DRow) :
    (String × Option String) ⊕ (String × Option String × Option String × Option String) :=
  if usesSkuKey t then Sum.inl (skuKey d) else Sum.inr (compKey d)

/-- A canonical row with the given sku/style/name/logo and neutral values in
every other field (concrete-table helper). -/
def mkCanon (sku style name logo : Option String) : CanonRow :=
  { logo := logo, sku := sku, description := none, name := name, style := style,
    merch_category := none, ownership := none, cost := none, retail := none,
    margin_abs := none, margin_pct := .nan, sell_through := 0,
    total_monthly_sales := 0, total_on_hand_units := 0,
    ly_total_on_hand_units := 0, store_total_units := 0 }

end SignetCleaner

namespace MemoMerge

/-- A cell of a dataframe used by `utils/memo_merge.py`: a string value, the
float missing value (`np.nan`, which `astype(str)` prints as `"nan"`), or the
masked missing value (`pd.NA`, printed as `"<NA>"`). -/
inductive Cell where
  | str (s : String)
  | nan
  | na
deriving DecidableEq

/-- A row as an association list from column name to cell. -/
abbrev MRow := List (String × Cell)

/-- A dataframe: a column list and a list of rows. -/
structure Table where
  cols : List String
  rows : List MRow
deriving DecidableEq

/-- Read the cell of column `c` (rows carry every column of their table). -/
def getCell (r : MRow) (c : String) : Cell :=
  (r.lookup c).getD .nan

/-- Write the cell of column `c`. -/
def setCell (r : MRow) (c : String) (v : Cell) : MRow :=
  (c, v) :: r.filter (fun p => p.1 != c)

/-- `str()` of a cell, as pandas `astype(str)` produces it. -/
def strOfCell : Cell → String
  | .str s => s
  | .nan => "nan"
  | .na => "<NA>"

/-- `_normalize_key`: `astype(str).str.strip().str.upper()`. -/
def normKeyStr (c : Cell) : String :=
  upperStr (stripWS (strOfCell c))

/-- `_blank_to_na`: `astype(str).str.strip().replace("", pd.NA)`.  Note that
`astype(str)` stringifies genuinely missing cells (`nan` → "nan",
`NA` → "<NA>") before the blank test, so only values that strip to the empty
string become missing. -/
def blankToNA (c : Cell) : Cell :=
  let t := stripWS (strOfCell c)
  if t = "" then .na else .str t

/-- `fillna` at cell level: replace a missing cell by the fallback. -/
def fillCell (c fallback : Cell) : Cell :=
  match c with
  | .nan => fallback
  | .na => fallback
  | v => v

/-- Normalize the key column of every row. -/
def normKeyCol (key : String) (rows : List MRow) : List MRow :=
  rows.map (fun r => setCell r key (.str (normKeyStr (getCell r key))))

/-- `map_df[map_df.duplicated(map_key, keep=False)]`: the rows whose key
occurs at least twice. -/
def dupKeyRows (key : String) (rows : List MRow) : List MRow :=
  rows.filter (fun r => 2 ≤ rows.countP (fun r2 => getCell r2 key == getCell r key))

/-- Key order used by `sort_values(map_key)`. -/
def rowLE (key : String) (a b : MRow) : Bool :=
  decide (strOfCell (getCell a key) ≤ strOfCell (getCell b key))

/-- Insert into a sorted list (helper for `sortByKey`). -/
def insSorted {α : Type} (le : α → α → Bool) (x : α) : List α → List α
  | [] => [x]
  | y :: ys => if le x y then x :: y :: ys else y :: insSorted le x ys

/-- `sort_values(map_key)`: order the rows by key (insertion sort; only the
ordering by key is relevant to the behaviour modelled here). -/
def sortByKey {α : Type} (le : α → α → Bool) : List α → List α
  | [] => []
  | x :: xs => insSorted le x (sortByKey le xs)

/-- The `DEFAULT_FILL_COLS` tuple of `utils/memo_merge.py`. -/
def DEFAULT_FILL_COLS : List String :=
  ["AE", "Buyer", "Department", "RA_Issued", "image_url",
   "Disposition", "Comments", "Date_RA_Issued"]

/-- The structural errors `apply_memo_style_merge` can raise: a missing key
column (`KeyError`) or duplicate mapping keys (`ValueError` carrying a
preview of the offending rows). -/
inductive MergeError where
  | missingDfKey (k : String)
  | missingMapKey (k : String)
  | ambiguousMappingKey (preview : List MRow)
deriving DecidableEq

/-- The output column name of a kept mapping column: `pd.merge` appends the
`"_map"` suffix only to columns that also exist in the primary table. -/
def outName (dfCols : List String) (c : String) : String :=
  if c ∈ dfCols then c ++ "_map" else c

/-- The per-row work of one fill-loop step:
`merged[col] = _blank_to_na(merged[col]).fillna(merged[map_col])` followed by
dropping the `map_col` column. -/
def fillRow (col mapCol : String) (r : MRow) : MRow :=
  (setCell r col (fillCell (blankToNA (getCell r col)) (getCell r mapCol))).filter
    (fun p => p.1 != mapCol)

/-- One step of the fill loop of `apply_memo_style_merge`: skip when the
`col_map` column is absent; otherwise materialize an absent `col` as all-`NA`
first, fill `_blank_to_na(col)` from `col_map`, and drop `col_map`. -/
def fillStep (st : List String × List MRow) (col : String) : List String × List MRow :=
  let mapCol := col ++ "_map"
  if mapCol ∉ st.1 then st
  else if col ∈ st.1 then
    (st.1.filter (fun c => c != mapCol), st.2.map (fillRow col mapCol))
  else
    ((st.1 ++ [col]).filter (fun c => c != mapCol),
     st.2.map (fun r => fillRow col mapCol (setCell r col .na)))

/-- `keep_cols`: the mapping key followed by the fill columns present in the
mapping table. -/
def keepColsOf (mapDf : Table) (mapKey : String) (fillCols : List String) : List String :=
  mapKey :: fillCols.filter (fun c => c ∈ mapDf.cols)

/-- The mapping rows after key normalization, projection to `keep_cols` and
renaming of the mapping key to the primary key. -/
def mapRowsPrepared (mapDf : Table) (dfKey mapKey : String) (fillCols : List String) : List MRow :=
  (normKeyCol mapKey mapDf.rows).map (fun r =>
    ((keepColsOf mapDf mapKey fillCols).map (fun c => (c, getCell r c))).map
      (fun p => if p.1 = mapKey then (dfKey, p.2) else p))

/-- One primary row after the left join: the row followed by the kept mapping
columns (suffixed `"_map"` where they collide with a primary column), taken
from every matching mapping row, or filled with `nan` when no mapping row
matches. -/
def emitRow (renamed : List MRow) (dfCols nonKeyCols : List String) (dfKey : String)
    (r : MRow) : List MRow :=
  let ms := renamed.filter (fun m => getCell m dfKey == getCell r dfKey)
  if ms.isEmpty then
    [r ++ nonKeyCols.map (fun c => (outName dfCols c, Cell.nan))]
  else
    ms.map (fun m => r ++ nonKeyCols.map (fun c => (outName dfCols c, getCell m c)))

/-- The successfully merged table (the code path taken once validation has
passed): normalize the primary key column, left join the prepared mapping
rows, then run the blank-fill loop over the fill columns. -/
def mergeBody (df mapDf : Table) (dfKey mapKey : String) (fillCols : List String) : Table :=
  let nonKeyCols := (keepColsOf mapDf mapKey fillCols).filter (fun c => c != mapKey)
  let merged := (normKeyCol dfKey df.rows).flatMap
    (emitRow (mapRowsPrepared mapDf dfKey mapKey fillCols) df.cols nonKeyCols dfKey)
  let st := fillCols.foldl fillStep (df.cols ++ nonKeyCols.map (outName df.cols), merged)
  ⟨st.1, st.2⟩

/-- `apply_memo_style_merge` from `utils/memo_merge.py` (the mapping table is
passed directly instead of being read from a CSV path; the returned
diagnostics, a pure side report, are not modelled): normalize both key
columns, enforce key uniqueness of the mapping when `strictUnique`, project
the mapping to its key plus the present fill columns, rename its key, left
join, then fill only blank primary cells. -/
def apply_memo_style_merge (df mapDf : Table) (dfKey mapKey : String)
    (fillCols : List String) (strictUnique : Bool) : Except MergeError Table :=
  if dfKey ∉ df.cols then .error (.missingDfKey dfKey)
  else if mapKey ∉ mapDf.cols then .error (.missingMapKey mapKey)
  else if strictUnique ∧ dupKeyRows mapKey (normKeyCol mapKey mapDf.rows) ≠ [] then
    .error (.ambiguousMappingKey
      ((sortByKey (rowLE mapKey) (dupKeyRows mapKey (normKeyCol mapKey mapDf.rows))).take 50))
  else
    .ok (mergeBody df mapDf dfKey mapKey fillCols)

end MemoMerge

namespace SlowMemo10

/-- The exact-match synonym table `canon` of `normalize_disposition`
(`pages/10_Slow_Memo_Analysis.py`). -/
def canonPairs : List (String × String) :=
  [("", "Unspecified"),
   ("unspecified", "Unspecified"),
   ("perpetual memo", "Perpetual Memo"),
   ("hold on memo/monitor", "Hold On Memo/Monitor"),
   ("hold on memo / monitor", "Hold On Memo/Monitor"),
   ("rtv closeout", "RTV - Closeout"),
   ("rtv - closeout", "RTV - Closeout"),
   ("rtv- closeout", "RTV - Closeout"),
   ("rtv melt", "RTV - Melt"),
   ("rtv - melt", "RTV - Melt"),
   ("rtv- melt", "RTV - Melt")]

/-- The `allowed` set of canonical output labels. -/
def allowed : List String :=
  ["Unspecified", "Perpetual Memo", "Hold On Memo/Monitor", "RTV - Closeout", "RTV - Melt"]

/-- The strip / whitespace-collapse / lowercase preprocessing of
`normalize_disposition`, at character-list level. -/
def prepList (l : List Char) : List Char :=
  (collapseWS (pyStrip isSpc l)).map toLowerC

/-- Element-level `normalize_disposition` after the `fillna("")` step:
preprocess, replace known synonyms, keep allowed labels, title-case any other
non-empty value. -/
def normElem (s : String) : String :=
  let t := String.mk (prepList s.data)
  let u := (canonPairs.lookup t).getD t
  if allowed.contains u then u
  else if u != "" then titleStr u
  else "Unspecified"

/-- `normalize_disposition` on one cell (`fillna("").astype(str)` first). -/
def normalize_disposition (c : Option String) : String :=
  normElem (c.getD "")

end SlowMemo10

namespace SlowMemo2

/-- The synonym table of `_normalize_disposition`
(`pages/2_Slow_Memo_Analysis.py`); it lacks the spaced
"hold on memo / monitor" variant that the page-10 copy has. -/
def canonPairs : List (String × String) :=
  [("", "Unspecified"),
   ("unspecified", "Unspecified"),
   ("perpetual memo", "Perpetual Memo"),
   ("hold on memo/monitor", "Hold On Memo/Monitor"),
   ("rtv closeout", "RTV - Closeout"),
   ("rtv - closeout", "RTV - Closeout"),
   ("rtv- closeout", "RTV - Closeout"),
   ("rtv melt", "RTV - Melt"),
   ("rtv - melt", "RTV - Melt"),
   ("rtv- melt", "RTV - Melt")]

/-- Element-level `_normalize_disposition` of `pages/2_Slow_Memo_Analysis.py`
(same pipeline as the page-10 copy, with its own synonym table). -/
def normElem (s : String) : String :=
  let t := String.mk (SlowMemo10.prepList s.data)
  let u := (canonPairs.lookup t).getD t
  if SlowMemo10.allowed.contains u then u
  else if u != "" then titleStr u
  else "Unspecified"

/-- `_normalize_disposition` on one cell. -/
def normalize_disposition (c : Option String) : String :=
  normElem (c.getD "")

end SlowMemo2

namespace SignetCleaner

/-- The worked raw row of the specification's scenario (`LOGO="Kay"`,
`SKU="123.0"`, `COST="$10.00"`, `RETAIL="$25.00"`, `TY UNITS="5"`,
`TTL OH U="2"`). -/
def rowScen : RawRow :=
  { LOGO := some "Kay", SKU := some "123.0", DESCRIPTION := none, NAME := none,
    STYLE := none, COST := some "$10.00", RETAIL := some "$25.00",
    MERCH_CATEGORY := none, OWNERSHIP := none, TY_UNITS := some "5",
    TTL_OH_U := some "2", LY_TTL_OH_U := none, Store_TTL_Units := none }

/-- The scenario row with `TTL OH U="0"` (zero on-hand units). -/
def rowZeroOH : RawRow :=
  { rowScen with TTL_OH_U := some "0" }

/-- The scenario row with `RETAIL="0"` (zero retail, non-missing cost). -/
def rowZeroRetail : RawRow :=
  { rowScen with RETAIL := some "0" }

/-- The scenario row with `SKU="120.0"` (a sku carrying the ".0" artifact
whose digits end in zero). -/
def rowSku120 : RawRow :=
  { rowScen with SKU := some "120.0" }

/-- The scenario row with `SKU="100"` (no ".0" artifact, digits end in zero). -/
def rowSku100 : RawRow :=
  { rowScen with SKU := some "100" }

/-- The cleaned record of `rowZeroOH` (extracted from the `clean` call). -/
def cZeroOH : CanonRow :=
  match clean [rowZeroOH] with
  | some (c :: _) => c
  | _ => mkCanon none none none none

/-- A one-month table whose first row has a blank sku and whose second row
has sku "A"; the two rows share the composite (style, name, logo) key. -/
def tblMixedSku : List DRow :=
  [⟨"2024-01", mkCanon none (some "S") (some "N") (some "L")⟩,
   ⟨"2024-01", mkCanon (some "A") (some "S") (some "N") (some "L")⟩]

/-- A one-month table with two rows sharing sku "A" but differing elsewhere. -/
def tblDupSku : List DRow :=
  [⟨"2024-01", mkCanon (some "A") (some "S") (some "N") (some "L")⟩,
   ⟨"2024-01", mkCanon (some "A") (some "S2") (some "N2") (some "L2")⟩]

end SignetCleaner

namespace MemoMerge

/-- A primary table whose single row has a genuinely missing `AE` cell. -/
def dfMissingAE : Table :=
  ⟨["Style", "AE"], [[("Style", .str "s1"), ("AE", Cell.nan)]]⟩

/-- A mapping table carrying `AE = "ALICE"` for the (normalized) key `S1`. -/
def mapAlice : Table :=
  ⟨["Style", "AE"], [[("Style", .str "S1"), ("AE", .str "ALICE")]]⟩

/-- A primary table with keys needing trimming/uppercasing and a populated
`AE` column. -/
def dfKeyCase : Table :=
  ⟨["Style", "AE"],
   [[("Style", .str " s1 "), ("AE", .str "BOB")],
    [("Style", .str "s9"), ("AE", .str "")]]⟩

/-- A mapping table whose two rows collide on the normalized key `A`. -/
def mapDupKeys : Table :=
  ⟨["Style", "AE"],
   [[("Style", .str "a"), ("AE", .str "X")],
    [("Style", .str "A "), ("AE", .str "Y")]]⟩

/-- The preview carried by the duplicate-key error of
`apply_memo_style_merge dfKeyCase mapDupKeys` (extracted from the call). -/
def previewDup : List MRow :=
  match apply_memo_style_merge dfKeyCase mapDupKeys "Style" "Style" DEFAULT_FILL_COLS true with
  | .error (.ambiguousMappingKey p) => p
  | _ => []

/-- The table returned by a successful `apply_memo_style_merge dfKeyCase
mapAlice` call (extracted from the call). -/
def outKeyCase : Table :=
  (apply_memo_style_merge dfKeyCase mapAlice "Style" "Style" DEFAULT_FILL_COLS true).toOption.getD ⟨[], []⟩

end MemoMerge

open SignetCleaner in
/-- Every record of a successful `clean` output comes from cleaning some row
of the input table. -/
theorem clean_mem {t : List RawRow} {ct : List CanonRow}
    (h : clean t = some ct) :
    ∀ c ∈ ct, ∃ r ∈ t, cleanRow r = some c := by
  induction t generalizing ct with
  | nil =>
    simp only [clean, Option.some.injEq] at h
    subst h
    intro c hc
    cases hc
  | cons r t ih =>
    simp only [clean] at h
    split at h
    · rename_i c0 ct' hcr hct
      cases h
      intro c hc
      rcases List.mem_cons.mp hc with hceq | hmem
      · exact ⟨r, List.mem_cons_self r t, hceq ▸ hcr⟩
      · obtain ⟨r', hr', h'⟩ := ih hct c hmem
        exact ⟨r', List.mem_cons_of_mem r hr', h'⟩
    · cases h

open SignetCleaner in
/-- Claim C1 (counterexample): on the specification's own scenario row with
`TTL OH U="0"`, `clean` succeeds and produces `sell_through = 0` — the exact
value the claim says can never occur (the claim demands the missing marker). -/
theorem C1_counterexample_sell_through_zero :
    (clean [rowZeroOH]).map (List.map (fun c => (c.total_on_hand_units, c.sell_through)))
      = some [(0, 0)] := by
  with_unfolding_all decide

open SignetCleaner in
/-- Claim C1 (amended): for every raw table accepted by `clean`, every row
whose on-hand-units value is zero has `sell_through` equal to `0` in the
cleaned output — never infinity (the zero denominator is replaced by the
missing marker before dividing) and never the missing marker (the missing
intermediate is then filled with zero). -/
theorem C1_zero_on_hand_gives_zero_sell_through
    (t : List RawRow) (ct : List CanonRow) (hc : clean t = some ct)
    (c : CanonRow) (hm : c ∈ ct) (h0 : c.total_on_hand_units = 0) :
    c.sell_through = 0 := by
  obtain ⟨r, -, hr⟩ := clean_mem hc c hm
  simp only [cleanRow] at hr
  split at hr
  · rename_i tms tohu lyo stu htms htohu hlyo hstu
    cases hr
    dsimp only at h0 ⊢
    cases tohu with
    | none => cases tms <;> simp
    | some z =>
      simp only [Option.getD_some] at h0
      subst h0
      cases tms <;> simp
  · cases hr

open SignetCleaner in
/-- Claim C1 (witness): the amended statement applied to the concrete
zero-on-hand scenario table. -/
theorem C1_witness : cZeroOH.sell_through = 0 :=
  C1_zero_on_hand_gives_zero_sell_through [rowZeroOH] [cZeroOH]
    (by with_unfolding_all decide) cZeroOH (List.mem_singleton.mpr rfl)
    (by with_unfolding_all decide)

open SignetCleaner in
/-- Claim C2 (code-bug evidence): on the scenario row with `RETAIL="0"` and
`COST="$10.00"`, `clean` succeeds with `retail = 0` and `cost = 10`, yet
`margin_pct` is negative infinity — not the missing marker the claim (and the
`mode.use_inf_as_na` wrapper in the source) intends.  The option only changes
NA *detection* inside the block and `margin_pct` is never passed through any
NA-detecting operation, so the IEEE infinity produced by `(0 - 10) / 0` is
stored as-is. -/
theorem C2_zero_retail_margin_pct_neg_infinity :
    (clean [rowZeroRetail]).map (List.map (fun c => (c.retail, c.cost, c.margin_pct)))
      = some [(some 0, some 10, FpVal.ninf)] := by
  with_unfolding_all decide

open SignetCleaner in
/-- Claim C5 (code-bug evidence): `df['sku'].str.strip('.0')` strips the
character set `{'.', '0'}` from both ends, not the trailing `".0"` suffix:
the raw sku `"120.0"` becomes `"12"` (the claim requires `"120"`) and the
artifact-free `"100"` becomes `"1"` (the claim requires it unchanged). -/
theorem C5_sku_strips_character_set_not_suffix :
    (clean [rowSku120, rowSku100]).map (List.map (fun c => c.sku))
      = some [some "12", some "1"] := by
  with_unfolding_all decide

/-- `getLast?` of a cons with a nonempty tail is `getLast?` of the tail. -/
theorem getLast?_cons_of_ne_nil {α : Type} {l : List α} (h : l ≠ []) (a : α) :
    (a :: l).getLast? = l.getLast? := by
  cases l with
  | nil => exact absurd rfl h
  | cons b t => exact List.getLast?_cons_cons

open SignetCleaner in
/-- Deduplication never lengthens the table. -/
theorem dropDupLast_length_le {α κ : Type} [DecidableEq κ] (key : α → κ) (l : List α) :
    (dropDupLast key l).length ≤ l.length := by
  induction l with
  | nil => exact Nat.le_refl 0
  | cons x xs ih =>
    simp only [dropDupLast]
    split
    · exact Nat.le_succ_of_le ih
    · exact Nat.succ_le_succ ih

open SignetCleaner in
/-- Every kept row is a row of the input. -/
theorem dropDupLast_subset {α κ : Type} [DecidableEq κ] (key : α → κ) (l : List α) :
    ∀ x ∈ dropDupLast key l, x ∈ l := by
  induction l with
  | nil => intro x hx; cases hx
  | cons a xs ih =>
    intro x hx
    simp only [dropDupLast] at hx
    split at hx
    · exact List.mem_cons_of_mem a (ih x hx)
    · rcases List.mem_cons.mp hx with hxa | h
      · exact hxa ▸ List.mem_cons_self a xs
      · exact List.mem_cons_of_mem a (ih x h)

open SignetCleaner in
/-- No two kept rows share a key. -/
theorem dropDupLast_pairwise {α κ : Type} [DecidableEq κ] (key : α → κ) (l : List α) :
    (dropDupLast key l).Pairwise (fun a b => key a ≠ key b) := by
  induction l with
  | nil => exact List.Pairwise.nil
  | cons a xs ih =>
    simp only [dropDupLast]
    split
    · exact ih
    · rename_i hno
      refine List.Pairwise.cons ?_ ih
      intro b hb hkey
      exact hno (List.any_eq_true.mpr
        ⟨b, dropDupLast_subset key xs b hb, by simp [hkey.symm]⟩)

open SignetCleaner in
/-- For every input row there is exactly the last row with its key in the
output. -/
theorem dropDupLast_last {α κ : Type} [DecidableEq κ] (key : α → κ) (l : List α) :
    ∀ x ∈ l, ∃ y ∈ dropDupLast key l, key y = key x ∧
      (l.filter (fun z => decide (key z = key x))).getLast? = some y := by
  induction l with
  | nil => intro x hx; cases hx
  | cons a xs ih =>
    intro x hx
    by_cases hdup : xs.any (fun y => decide (key y = key a)) = true
    · rcases List.mem_cons.mp hx with hxa | hmem
      · subst hxa
        obtain ⟨b, hb, hkb'⟩ := List.any_eq_true.mp hdup
        have hkb : key b = key x := of_decide_eq_true hkb'
        obtain ⟨y, hy, hky, hlast⟩ := ih b hb
        have hpred : (fun z => decide (key z = key b)) = (fun z => decide (key z = key x)) := by
          funext z
          rw [hkb]
        rw [hpred] at hlast
        refine ⟨y, by simp only [dropDupLast, if_pos hdup]; exact hy, by rw [hky, hkb], ?_⟩
        rw [List.filter_cons, if_pos (by simp)]
        have hne : xs.filter (fun z => decide (key z = key x)) ≠ [] := by
          intro hemp
          have hbP : decide (key b = key x) = true := by
            rw [hkb]
            simp
          have hbmem : b ∈ xs.filter (fun z => decide (key z = key x)) :=
            List.mem_filter.mpr ⟨hb, hbP⟩
          rw [hemp] at hbmem
          cases hbmem
        rw [getLast?_cons_of_ne_nil hne]
        exact hlast
      · obtain ⟨y, hy, hky, hlast⟩ := ih x hmem
        refine ⟨y, by simp only [dropDupLast, if_pos hdup]; exact hy, hky, ?_⟩
        rw [List.filter_cons]
        by_cases hpa : key a = key x
        · have hxmem : x ∈ xs.filter (fun z => decide (key z = key x)) :=
            List.mem_filter.mpr ⟨hmem, by simp⟩
          have hne : xs.filter (fun z => decide (key z = key x)) ≠ [] := by
            intro hemp
            rw [hemp] at hxmem
            cases hxmem
          rw [if_pos (by simp [hpa]), getLast?_cons_of_ne_nil hne]
          exact hlast
        · rw [if_neg (by simp [hpa])]
          exact hlast
    · rcases List.mem_cons.mp hx with hxa | hmem
      · subst hxa
        refine ⟨x, by simp only [dropDupLast, if_neg hdup]; exact List.mem_cons_self x _, rfl, ?_⟩
        rw [List.filter_cons, if_pos (by simp)]
        have hemp : xs.filter (fun z => decide (key z = key x)) = [] := by
          rw [List.filter_eq_nil_iff]
          intro z hz hkz
          exact hdup (List.any_eq_true.mpr ⟨z, hz, by simpa using of_decide_eq_true hkz⟩)
        rw [hemp]
        rfl
      · obtain ⟨y, hy, hky, hlast⟩ := ih x hmem
        have hka : ¬ (key a = key x) := by
          intro hk
          exact hdup (List.any_eq_true.mpr ⟨x, hmem, by simp [hk]⟩)
        refine ⟨y, by simp only [dropDupLast, if_neg hdup]; exact List.mem_cons_of_mem a hy, hky, ?_⟩
        rw [List.filter_cons, if_neg (by simp [hka])]
        exact hlast

open SignetCleaner in
/-- Replacing the key by an injective image leaves deduplication unchanged. -/
theorem dropDupLast_comp {α κ κ' : Type} [DecidableEq κ] [DecidableEq κ']
    (f : κ → κ') (hf : Function.Injective f) (key : α → κ) (l : List α) :
    dropDupLast (fun a => f (key a)) l = dropDupLast key l := by
  induction l with
  | nil => rfl
  | cons a xs ih =>
    simp only [dropDupLast]
    have hcond : (xs.any fun y => decide (f (key y) = f (key a)))
        = (xs.any fun y => decide (key y = key a)) := by
      simp only [hf.eq_iff]
    rw [hcond, ih]

open SignetCleaner in
/-- `dedupe_within_month` is deduplication by the chosen key `dKey`. -/
theorem dedupe_eq_dropDupLast (t : List DRow) :
    dedupe_within_month t = dropDupLast (dKey t) t := by
  by_cases h : usesSkuKey t = true
  · have hk : dKey t = fun d => Sum.inl (skuKey d) := by
      funext d
      simp [dKey, h]
    rw [dedupe_within_month, if_pos h, hk, dropDupLast_comp Sum.inl Sum.inl_injective]
  · have hf : usesSkuKey t = false := Bool.eq_false_iff.mpr h
    have hk : dKey t = fun d => Sum.inr (compKey d) := by
      funext d
      simp [dKey, hf]
    rw [dedupe_within_month, if_neg (by simp [hf]), hk,
      dropDupLast_comp Sum.inr Sum.inr_injective]

open SignetCleaner in
/-- Claim C7: for every canonical table, `dedupe_within_month` never
increases the row count, its output has no two rows sharing the chosen
deduplication key, for every input row the output keeps exactly the last
input row bearing its key (in original order), and the empty table maps to
the empty table. -/
theorem C7_dedupe_shape (t : List DRow) :
    (dedupe_within_month t).length ≤ t.length
  ∧ (dedupe_within_month t).Pairwise (fun a b => dKey t a ≠ dKey t b)
  ∧ (∀ x ∈ t, ∃ y ∈ dedupe_within_month t, dKey t y = dKey t x ∧
      (t.filter (fun z => decide (dKey t z = dKey t x))).getLast? = some y)
  ∧ dedupe_within_month ([] : List DRow) = [] := by
  rw [dedupe_eq_dropDupLast]
  exact ⟨dropDupLast_length_le (dKey t) t, dropDupLast_pairwise (dKey t) t,
    dropDupLast_last (dKey t) t, rfl⟩

open SignetCleaner in
/-- Claim C7 (witness): the shape properties evaluated on a concrete
two-row table with a duplicated sku key. -/
theorem C7_witness :
    (dedupe_within_month tblDupSku).length ≤ tblDupSku.length
  ∧ dedupe_within_month ([] : List DRow) = [] :=
  ⟨(C7_dedupe_shape tblDupSku).1, (C7_dedupe_shape tblDupSku).2.2.2⟩

open SignetCleaner in
/-- Claim C4 (counterexample): `tblMixedSku` has a blank sku in its first row
and sku "A" in its second, so the claim requires the composite key for the
whole table; the code nevertheless chooses the (period, sku) key — both rows
survive, while composite-key deduplication would keep only one. -/
theorem C4_counterexample_mixed_blank_sku :
    usesSkuKey tblMixedSku = true
  ∧ ¬ (∀ d ∈ tblMixedSku, skuFilled d ≠ "")
  ∧ dedupe_within_month tblMixedSku = tblMixedSku
  ∧ (dropDupLast compKey tblMixedSku).length = 1 := by
  refine ⟨by decide, by decide, by with_unfolding_all decide, by with_unfolding_all decide⟩

open SignetCleaner in
/-- Claim C4 (amended): the stable (period, sku) key is chosen exactly when
at least one row of the table has a non-blank sku; the composite
(period, style, name, logo) key is used only when the sku is blank on every
row. -/
theorem C4_key_choice (t : List DRow) :
    (usesSkuKey t = true ↔ ∃ d ∈ t, skuFilled d ≠ "")
  ∧ ((∃ d ∈ t, skuFilled d ≠ "") → dedupe_within_month t = dropDupLast skuKey t)
  ∧ ((∀ d ∈ t, skuFilled d = "") → dedupe_within_month t = dropDupLast compKey t) := by
  have hiff : usesSkuKey t = true ↔ ∃ d ∈ t, skuFilled d ≠ "" := by
    simp only [usesSkuKey, Bool.not_eq_true', List.all_eq_false, beq_iff_eq]
  refine ⟨hiff, ?_, ?_⟩
  · intro h
    rw [dedupe_within_month, if_pos (hiff.mpr h)]
  · intro h
    have hf : usesSkuKey t = false := by
      simp only [usesSkuKey, Bool.not_eq_false', List.all_eq_true, beq_iff_eq]
      exact h
    rw [dedupe_within_month, if_neg (by simp [hf])]

open SignetCleaner in
/-- Claim C4 (witness): the amended key-choice rule applied to the concrete
mixed-blank table. -/
theorem C4_witness : dedupe_within_month tblMixedSku = dropDupLast skuKey tblMixedSku :=
  (C4_key_choice tblMixedSku).2.1 (by decide)

open MemoMerge in
/-- Reading back the column just written. -/
theorem getCell_setCell_self (r : MRow) (c : String) (v : Cell) :
    getCell (setCell r c v) c = v := by
  simp [getCell, setCell, List.lookup]

open MemoMerge in
/-- Writing one column, even followed by extra columns, does not disturb the
lookup of that column. -/
theorem getCell_setCell_append (r : MRow) (c : String) (v : Cell) (e : MRow) :
    getCell (setCell r c v ++ e) c = v := by
  simp [getCell, setCell, List.lookup]

open MemoMerge in
/-- Dropping a differently-named column does not change a lookup. -/
theorem lookup_filter_ne (r : MRow) (c k : String) (h : k ≠ c) :
    (r.filter (fun p => p.1 != c)).lookup k = r.lookup k := by
  induction r with
  | nil => rfl
  | cons p r ih =>
    obtain ⟨n, v⟩ := p
    by_cases hn : n = c
    · subst hn
      have hk : (k == n) = false := by simpa using h
      simp [List.filter_cons, List.lookup, hk, ih]
    · have hb : (n != c) = true := by simpa using hn
      simp only [List.filter_cons, hb, if_pos]
      simp [List.lookup, ih]

open MemoMerge in
/-- Dropping a differently-named column does not change `getCell`. -/
theorem getCell_filter_ne (r : MRow) (c k : String) (h : k ≠ c) :
    getCell (r.filter (fun p => p.1 != c)) k = getCell r k := by
  simp [getCell, lookup_filter_ne r c k h]

open MemoMerge in
/-- Writing a differently-named column does not change `getCell`. -/
theorem getCell_setCell_ne (r : MRow) (c k : String) (v : Cell) (h : k ≠ c) :
    getCell (setCell r c v) k = getCell r k := by
  have hk : (k == c) = false := by simpa using h
  simp only [getCell, setCell, List.lookup, hk]
  exact getCell_filter_ne r c k h

open MemoMerge in
/-- One fill step neither adds nor removes rows. -/
theorem fillStep_length (st : List String × List MRow) (c : String) :
    (fillStep st c).2.length = st.2.length := by
  simp only [fillStep]
  split
  · rfl
  · split <;> simp

open MemoMerge in
/-- A fill-loop row operation for column `col` leaves every column named
neither `col` nor `col ++ "_map"` untouched. -/
theorem fillRow_getCell (col mapCol k : String) (r : MRow)
    (h1 : k ≠ col) (h2 : k ≠ mapCol) :
    getCell (fillRow col mapCol r) k = getCell r k := by
  rw [fillRow, getCell_filter_ne _ _ _ h2, getCell_setCell_ne _ _ _ _ h1]

open MemoMerge in
/-- The whole fill loop neither adds nor removes rows. -/
theorem fillFold_length (cols : List String) (st : List String × List MRow) :
    (cols.foldl fillStep st).2.length = st.2.length := by
  induction cols generalizing st with
  | nil => rfl
  | cons c cols ih => rw [List.foldl_cons, ih, fillStep_length]

open MemoMerge in
/-- One fill step for column `col` leaves every column named neither `col`
nor `col ++ "_map"` untouched (stated index-wise via optional indexing). -/
theorem fillStep_getCell (st : List String × List MRow) (col k : String)
    (h1 : col ≠ k) (h2 : col ++ "_map" ≠ k) (i : ℕ) :
    ((fillStep st col).2[i]?).map (fun r => getCell r k)
      = (st.2[i]?).map (fun r => getCell r k) := by
  simp only [fillStep]
  split
  · rfl
  · split
    · dsimp only
      simp only [List.getElem?_map]
      cases st.2[i]? with
      | none => rfl
      | some r =>
        simp only [Option.map_some']
        rw [fillRow_getCell _ _ _ _ (Ne.symm h1) (Ne.symm h2)]
    · dsimp only
      simp only [List.getElem?_map]
      cases st.2[i]? with
      | none => rfl
      | some r =>
        simp only [Option.map_some']
        rw [fillRow_getCell _ _ _ _ (Ne.symm h1) (Ne.symm h2),
          getCell_setCell_ne _ _ _ _ (Ne.symm h1)]

open MemoMerge in
/-- The whole fill loop leaves column `k` untouched when no fill column (nor
its `"_map"` companion) is named `k`. -/
theorem fillFold_getCell (cols : List String) (k : String)
    (hc : ∀ c ∈ cols, c ≠ k ∧ c ++ "_map" ≠ k) (st : List String × List MRow) (i : ℕ) :
    (((cols.foldl fillStep st).2)[i]?).map (fun r => getCell r k)
      = (st.2[i]?).map (fun r => getCell r k) := by
  induction cols generalizing st with
  | nil => rfl
  | cons c cols ih =>
    obtain ⟨h1, h2⟩ := hc c (List.mem_cons_self c cols)
    rw [List.foldl_cons, ih (fun d hd => hc d (List.mem_cons_of_mem c hd)) (fillStep st c),
      fillStep_getCell st c k h1 h2 i]

/-- A flat map whose pieces are singletons preserves length. -/
theorem flatMap_length_one {α β : Type} (f : α → List β) (l : List α)
    (h : ∀ r ∈ l, (f r).length = 1) : (l.flatMap f).length = l.length := by
  induction l with
  | nil => rfl
  | cons a l ih =>
    rw [List.flatMap_cons, List.length_append, h a (List.mem_cons_self a l),
      ih (fun r hr => h r (List.mem_cons_of_mem a hr))]
    simp [Nat.add_comm]

/-- A flat map whose pieces are singletons acts index-wise, and an
element-wise relation between each row and its image holds at every index. -/
theorem flatMap_getElem? {α β : Type} (f : α → List β) (l : List α) (Q : α → β → Prop)
    (h : ∀ r ∈ l, (f r).length = 1 ∧ ∀ y ∈ f r, Q r y) :
    ∀ (i : ℕ) (y : β), (l.flatMap f)[i]? = some y → ∃ r, l[i]? = some r ∧ Q r y := by
  induction l with
  | nil =>
    intro i y hy
    simp at hy
  | cons a l ih =>
    intro i y hy
    obtain ⟨hlen, hQ⟩ := h a (List.mem_cons_self a l)
    obtain ⟨z, hz⟩ := List.length_eq_one.mp hlen
    rw [List.flatMap_cons, hz, List.singleton_append] at hy
    cases i with
    | zero =>
      rw [List.getElem?_cons_zero] at hy
      injection hy with hzy
      subst hzy
      exact ⟨a, List.getElem?_cons_zero, hQ z (by rw [hz]; exact List.mem_singleton.mpr rfl)⟩
    | succ n =>
      rw [List.getElem?_cons_succ] at hy
      obtain ⟨r, hr, hQ2⟩ := ih (fun d hd => h d (List.mem_cons_of_mem a hd)) n y hy
      exact ⟨r, by rw [List.getElem?_cons_succ]; exact hr, hQ2⟩

open MemoMerge in
/-- The key cell of a prepared mapping row is the normalized mapping key of
the original row, now stored under the primary key name. -/
theorem getCell_prepared (mapDf : Table) (dfKey mapKey : String) (fillCols : List String)
    (m : MRow) :
    getCell (((keepColsOf mapDf mapKey fillCols).map (fun c => (c, getCell m c))).map
      (fun p => if p.1 = mapKey then (dfKey, p.2) else p)) dfKey
      = getCell m mapKey := by
  have h1 : ((keepColsOf mapDf mapKey fillCols).map (fun c => (c, getCell m c))).map
      (fun p => if p.1 = mapKey then (dfKey, p.2) else p)
      = (dfKey, getCell m mapKey)
        :: (((fillCols.filter (fun c => c ∈ mapDf.cols)).map (fun c => (c, getCell m c))).map
          (fun p => if p.1 = mapKey then (dfKey, p.2) else p)) := by
    simp [keepColsOf]
  rw [h1]
  simp [getCell, List.lookup]

open MemoMerge in
/-- With a duplicate-free mapping (the strict check passed), at most one
prepared mapping row matches any key. -/
theorem matches_le_one (mapDf : Table) (dfKey mapKey : String) (fillCols : List String)
    (hdup : dupKeyRows mapKey (normKeyCol mapKey mapDf.rows) = []) (K : Cell) :
    ((mapRowsPrepared mapDf dfKey mapKey fillCols).filter
      (fun m => getCell m dfKey == K)).length ≤ 1 := by
  by_contra hlt
  push_neg at hlt
  rw [mapRowsPrepared, List.filter_map, List.length_map] at hlt
  have hpred : ((fun m => getCell m dfKey == K) ∘ (fun r =>
      ((keepColsOf mapDf mapKey fillCols).map (fun c => (c, getCell r c))).map
        (fun p => if p.1 = mapKey then (dfKey, p.2) else p)))
      = fun m => getCell m mapKey == K := by
    funext m
    simp only [Function.comp]
    rw [getCell_prepared]
  rw [hpred] at hlt
  have hpos : 0 < ((normKeyCol mapKey mapDf.rows).filter (fun m => getCell m mapKey == K)).length := by
    omega
  obtain ⟨m, hm⟩ := List.exists_mem_of_length_pos hpos
  have hmem := (List.mem_filter.mp hm).1
  have hkey : getCell m mapKey = K := by
    have := (List.mem_filter.mp hm).2
    simpa using this
  have hcnt : 2 ≤ (normKeyCol mapKey mapDf.rows).countP
      (fun r2 => getCell r2 mapKey == getCell m mapKey) := by
    rw [hkey, List.countP_eq_length_filter]
    omega
  have hdmem : m ∈ dupKeyRows mapKey (normKeyCol mapKey mapDf.rows) :=
    List.mem_filter.mpr ⟨hmem, decide_eq_true hcnt⟩
  rw [hdup] at hdmem
  cases hdmem

open MemoMerge in
/-- When at most one mapping row matches, each primary row emits exactly one
joined row, and every emitted row extends the primary row on the right. -/
theorem emitRow_shape (renamed : List MRow) (dfCols nonKeyCols : List String)
    (dfKey : String) (r : MRow)
    (hle : (renamed.filter (fun m => getCell m dfKey == getCell r dfKey)).length ≤ 1) :
    (emitRow renamed dfCols nonKeyCols dfKey r).length = 1
  ∧ ∀ y ∈ emitRow renamed dfCols nonKeyCols dfKey r, ∃ e, y = r ++ e := by
  simp only [emitRow]
  by_cases hms : (renamed.filter (fun m => getCell m dfKey == getCell r dfKey)).isEmpty
  · rw [if_pos hms]
    refine ⟨rfl, ?_⟩
    intro y hy
    rw [List.mem_singleton] at hy
    exact ⟨_, hy⟩
  · rw [if_neg hms]
    have hne : (renamed.filter (fun m => getCell m dfKey == getCell r dfKey)).length ≠ 0 := by
      intro h0
      exact hms (by simpa [List.isEmpty_iff, List.length_eq_zero] using h0)
    refine ⟨by rw [List.length_map]; omega, ?_⟩
    intro y hy
    obtain ⟨m, hm, hym⟩ := List.mem_map.mp hy
    exact ⟨_, hym.symm⟩

open MemoMerge in
/-- Shape of the successfully merged table: one output row per primary row,
and the key column holds the normalized primary key values. -/
theorem mergeBody_rows (df mapDf : Table) (dfKey mapKey : String) (fillCols : List String)
    (hfc : ∀ c ∈ fillCols, c ≠ dfKey ∧ c ++ "_map" ≠ dfKey)
    (hdup : dupKeyRows mapKey (normKeyCol mapKey mapDf.rows) = []) :
    (mergeBody df mapDf dfKey mapKey fillCols).rows.length = df.rows.length
  ∧ ∀ i : ℕ, ((mergeBody df mapDf dfKey mapKey fillCols).rows[i]?).map (fun r => getCell r dfKey)
      = (df.rows[i]?).map (fun r => Cell.str (normKeyStr (getCell r dfKey))) := by
  have hshape : ∀ r ∈ normKeyCol dfKey df.rows,
      (emitRow (mapRowsPrepared mapDf dfKey mapKey fillCols) df.cols
        ((keepColsOf mapDf mapKey fillCols).filter (fun c => c != mapKey)) dfKey r).length = 1
      ∧ ∀ y ∈ emitRow (mapRowsPrepared mapDf dfKey mapKey fillCols) df.cols
          ((keepColsOf mapDf mapKey fillCols).filter (fun c => c != mapKey)) dfKey r,
          getCell y dfKey = getCell r dfKey := by
    intro r hr
    obtain ⟨h1, h2⟩ := emitRow_shape (mapRowsPrepared mapDf dfKey mapKey fillCols) df.cols
      ((keepColsOf mapDf mapKey fillCols).filter (fun c => c != mapKey)) dfKey r
      (matches_le_one mapDf dfKey mapKey fillCols hdup (getCell r dfKey))
    refine ⟨h1, ?_⟩
    intro y hy
    obtain ⟨e, hye⟩ := h2 y hy
    obtain ⟨r0, hr0, hrr⟩ := List.mem_map.mp hr
    rw [hye, ← hrr, getCell_setCell_append, getCell_setCell_self]
  have hlen : ((normKeyCol dfKey df.rows).flatMap
      (emitRow (mapRowsPrepared mapDf dfKey mapKey fillCols) df.cols
        ((keepColsOf mapDf mapKey fillCols).filter (fun c => c != mapKey)) dfKey)).length
      = df.rows.length := by
    rw [flatMap_length_one _ _ (fun r hr => (hshape r hr).1), normKeyCol, List.length_map]
  constructor
  · simp only [mergeBody]
    rw [fillFold_length]
    exact hlen
  · intro i
    simp only [mergeBody]
    rw [fillFold_getCell fillCols dfKey hfc _ i]
    cases hdf : df.rows[i]? with
    | none =>
      have hge : df.rows.length ≤ i := List.getElem?_eq_none_iff.mp hdf
      have hnone : ((normKeyCol dfKey df.rows).flatMap
          (emitRow (mapRowsPrepared mapDf dfKey mapKey fillCols) df.cols
            ((keepColsOf mapDf mapKey fillCols).filter (fun c => c != mapKey)) dfKey))[i]? = none := by
        rw [List.getElem?_eq_none_iff, hlen]
        exact hge
      rw [hnone]
      rfl
    | some r0 =>
      have hlt : i < df.rows.length := by
        by_contra hge
        rw [List.getElem?_eq_none_iff.mpr (by omega)] at hdf
        cases hdf
      have hy : ∃ y, ((normKeyCol dfKey df.rows).flatMap
          (emitRow (mapRowsPrepared mapDf dfKey mapKey fillCols) df.cols
            ((keepColsOf mapDf mapKey fillCols).filter (fun c => c != mapKey)) dfKey))[i]? = some y := by
        refine ⟨_, List.getElem?_eq_getElem ?_⟩
        rw [hlen]
        exact hlt
      obtain ⟨y, hyy⟩ := hy
      obtain ⟨r, hr, hQ⟩ := flatMap_getElem? _ _
        (fun r y => getCell y dfKey = getCell r dfKey) hshape i y hyy
      rw [normKeyCol, List.getElem?_map, hdf, Option.map_some'] at hr
      injection hr with hr
      rw [hyy, Option.map_some', Option.map_some', hQ, ← hr, getCell_setCell_self]

open MemoMerge in
/-- Claim C10: whenever `apply_memo_style_merge` (strict mode, the default)
returns successfully, the returned table has exactly one row per primary row
and its join-key column holds the trimmed, uppercased string form of the
primary table's key cells — the normalization used for matching is written
into the output, so the returned key field may differ from the caller's
original key values.  (The fill columns are assumed not to collide with the
key column, as with the default fill columns.) -/
theorem C10_key_column_normalized (df mapDf : Table) (dfKey mapKey : String)
    (fillCols : List String) (out : Table)
    (hfc : ∀ c ∈ fillCols, c ≠ dfKey ∧ c ++ "_map" ≠ dfKey)
    (h : apply_memo_style_merge df mapDf dfKey mapKey fillCols true = .ok out) :
    out.rows.length = df.rows.length
  ∧ ∀ i : ℕ, (out.rows[i]?).map (fun r => getCell r dfKey)
      = (df.rows[i]?).map (fun r => Cell.str (normKeyStr (getCell r dfKey))) := by
  rw [apply_memo_style_merge] at h
  split at h
  · cases h
  · split at h
    · cases h
    · split at h
      · cases h
      · rename_i hcond
        cases h
        have hdup : dupKeyRows mapKey (normKeyCol mapKey mapDf.rows) = [] := by
          by_contra hne
          exact hcond ⟨rfl, hne⟩
        exact mergeBody_rows df mapDf dfKey mapKey fillCols hfc hdup

open MemoMerge in
/-- Claim C10 (witness): the key-normalization statement applied to the
concrete tables `dfKeyCase` and `mapAlice`. -/
theorem C10_witness : outKeyCase.rows.length = dfKeyCase.rows.length :=
  (C10_key_column_normalized dfKeyCase mapAlice "Style" "Style" DEFAULT_FILL_COLS outKeyCase
    (by decide) (by with_unfolding_all rfl)).1

open MemoMerge in
/-- Claim C6: whenever the mapping source has two rows with the same
normalized key, `apply_memo_style_merge` (strict mode, the default) fails
with the ambiguous-mapping-key error carrying a preview of at most 50
offending rows, and produces no output table. -/
theorem C6_duplicate_mapping_key_errors (df mapDf : Table) (dfKey mapKey : String)
    (fillCols : List String)
    (hdf : dfKey ∈ df.cols) (hmap : mapKey ∈ mapDf.cols)
    (l1 l2 l3 : List MRow) (r1 r2 : MRow)
    (hrows : mapDf.rows = l1 ++ r1 :: l2 ++ r2 :: l3)
    (hkey : normKeyStr (getCell r1 mapKey) = normKeyStr (getCell r2 mapKey)) :
    ∃ preview, apply_memo_style_merge df mapDf dfKey mapKey fillCols true
        = .error (.ambiguousMappingKey preview) ∧ preview.length ≤ 50 := by
  have hsplit : normKeyCol mapKey mapDf.rows
      = normKeyCol mapKey l1
        ++ setCell r1 mapKey (.str (normKeyStr (getCell r1 mapKey)))
        :: (normKeyCol mapKey l2
            ++ setCell r2 mapKey (.str (normKeyStr (getCell r2 mapKey)))
            :: normKeyCol mapKey l3) := by
    simp [normKeyCol, hrows]
  have hmem1 : setCell r1 mapKey (.str (normKeyStr (getCell r1 mapKey)))
      ∈ normKeyCol mapKey mapDf.rows := by
    rw [hsplit]
    exact List.mem_append_right _ (List.mem_cons_self _ _)
  have hcnt : 2 ≤ (normKeyCol mapKey mapDf.rows).countP
      (fun rx => getCell rx mapKey
        == getCell (setCell r1 mapKey (.str (normKeyStr (getCell r1 mapKey)))) mapKey) := by
    rw [getCell_setCell_self, hsplit]
    simp only [List.countP_append, List.countP_cons]
    have e1 : (getCell (setCell r1 mapKey (.str (normKeyStr (getCell r1 mapKey)))) mapKey
        == Cell.str (normKeyStr (getCell r1 mapKey))) = true := by
      rw [getCell_setCell_self]
      simp
    have e2 : (getCell (setCell r2 mapKey (.str (normKeyStr (getCell r2 mapKey)))) mapKey
        == Cell.str (normKeyStr (getCell r1 mapKey))) = true := by
      rw [getCell_setCell_self, hkey]
      simp
    rw [e1, e2]
    simp only [if_true]
    omega
  have hne : dupKeyRows mapKey (normKeyCol mapKey mapDf.rows) ≠ [] := by
    intro hemp
    have hdmem : setCell r1 mapKey (.str (normKeyStr (getCell r1 mapKey)))
        ∈ dupKeyRows mapKey (normKeyCol mapKey mapDf.rows) :=
      List.mem_filter.mpr ⟨hmem1, decide_eq_true hcnt⟩
    rw [hemp] at hdmem
    cases hdmem
  rw [apply_memo_style_merge, if_neg (fun hn => hn hdf), if_neg (fun hn => hn hmap),
    if_pos ⟨rfl, hne⟩]
  refine ⟨_, rfl, ?_⟩
  rw [List.length_take]
  exact Nat.min_le_left 50 _

open MemoMerge in
/-- Claim C6 (witness): two mapping rows whose keys normalize to "A" make the
concrete merge fail with the ambiguous-key error and a two-row preview. -/
theorem C6_witness :
    apply_memo_style_merge dfKeyCase mapDupKeys "Style" "Style" DEFAULT_FILL_COLS true
      = .error (.ambiguousMappingKey previewDup) ∧ previewDup.length ≤ 50 := by
  obtain ⟨p, hp, hl⟩ := C6_duplicate_mapping_key_errors dfKeyCase mapDupKeys "Style" "Style"
    DEFAULT_FILL_COLS (by decide) (by decide) [] [] []
    [("Style", .str "a"), ("AE", .str "X")] [("Style", .str "A "), ("AE", .str "Y")]
    rfl (by decide)
  have hpd : previewDup = p := by
    unfold previewDup
    rw [hp]
  rw [hpd]
  exact ⟨hp, hl⟩

open MemoMerge in
/-- Claim C3 (code-bug evidence): merging a primary table whose `AE` cell is
genuinely missing with a mapping that supplies `AE="ALICE"` for its key
succeeds but leaves the literal string "nan" in the output: `_blank_to_na`
stringifies the missing cell (`astype(str)`) before its blank test, so the
subsequent `fillna` no longer sees a missing value and the mapping value is
never adopted — contradicting both the claim and the function's own
docstring ("Fills df values only when blank/NA"). -/
theorem C3_missing_cell_not_filled :
    getCell (dfMissingAE.rows.headD []) "AE" = Cell.nan
  ∧ (apply_memo_style_merge dfMissingAE mapAlice "Style" "Style" DEFAULT_FILL_COLS true).toOption.map
      (fun t => t.rows.map (fun r => getCell r "AE")) = some [Cell.str "nan"] :=
  ⟨by decide, by with_unfolding_all decide⟩

/-- Claim C8: the disposition normalizer maps missing, empty, and
whitespace-only inputs to the literal string "Unspecified", and maps every
known synonym spelling of its table to its single canonical label — in
particular "RTV- Closeout", "rtv - closeout" and "RTV Closeout" all return
the identical canonical string (for both the page-10 function and the page-2
copy). -/
theorem C8_normalize_blank_and_synonyms :
    (SlowMemo10.normalize_disposition none = "Unspecified"
      ∧ SlowMemo10.normalize_disposition (some "") = "Unspecified"
      ∧ SlowMemo10.normalize_disposition (some "   ") = "Unspecified")
  ∧ (∀ p ∈ SlowMemo10.canonPairs, SlowMemo10.normElem p.1 = p.2)
  ∧ (∀ p ∈ SlowMemo2.canonPairs, SlowMemo2.normElem p.1 = p.2)
  ∧ (SlowMemo10.normalize_disposition (some "RTV- Closeout") = "RTV - Closeout"
      ∧ SlowMemo10.normalize_disposition (some "rtv - closeout") = "RTV - Closeout"
      ∧ SlowMemo10.normalize_disposition (some "RTV Closeout") = "RTV - Closeout")
  ∧ (SlowMemo2.normalize_disposition (some "RTV- Closeout") = "RTV - Closeout"
      ∧ SlowMemo2.normalize_disposition (some "rtv - closeout") = "RTV - Closeout"
      ∧ SlowMemo2.normalize_disposition (some "RTV Closeout") = "RTV - Closeout") := by
  decide

/-- Claim C8 (witness): the synonym table applied at one concrete spelling. -/
theorem C8_witness : SlowMemo10.normElem "rtv- closeout" = "RTV - Closeout" :=
  C8_normalize_blank_and_synonyms.2.1 ("rtv- closeout", "RTV - Closeout") (by decide)

/-- `Char.ofNat` of a small scalar value has that value. -/
theorem toNat_ofNat_valid {n : ℕ} (h : n < 55296) : (Char.ofNat n).toNat = n := by
  have hv : n.isValidChar := Or.inl h
  simp [Char.ofNat, hv, Char.ofNatAux, Char.toNat, UInt32.toNat, BitVec.toNat_ofNatLt]

/-- The scalar value of `toLowerC`. -/
theorem toNat_toLowerC (c : Char) :
    (toLowerC c).toNat = if 65 ≤ c.toNat ∧ c.toNat ≤ 90 then c.toNat + 32 else c.toNat := by
  by_cases h : 65 ≤ c.toNat ∧ c.toNat ≤ 90
  · rw [toLowerC, if_pos h, if_pos h]
    exact toNat_ofNat_valid (by omega)
  · rw [toLowerC, if_neg h, if_neg h]

/-- The scalar value of `toUpperC`. -/
theorem toNat_toUpperC (c : Char) :
    (toUpperC c).toNat = if 97 ≤ c.toNat ∧ c.toNat ≤ 122 then c.toNat - 32 else c.toNat := by
  by_cases h : 97 ≤ c.toNat ∧ c.toNat ≤ 122
  · rw [toUpperC, if_pos h, if_pos h]
    exact toNat_ofNat_valid (by omega)
  · rw [toUpperC, if_neg h, if_neg h]

/-- Letters are not whitespace. -/
theorem isSpc_false_of_letter {c : Char} (h1 : 65 ≤ c.toNat) (h2 : c.toNat ≤ 122) :
    isSpc c = false := by
  simp only [isSpc, Bool.or_eq_false_iff, beq_eq_false_iff_ne, ne_eq]
  omega

/-- Lowercasing is idempotent character-wise. -/
theorem toLowerC_toLowerC (c : Char) : toLowerC (toLowerC c) = toLowerC c := by
  by_cases h : 65 ≤ c.toNat ∧ c.toNat ≤ 90
  · have hn : (toLowerC c).toNat = c.toNat + 32 := by
      rw [toNat_toLowerC, if_pos h]
    rw [toLowerC, if_neg (by rw [hn]; omega)]
  · have hc : toLowerC c = c := by
      rw [toLowerC, if_neg h]
    rw [hc]
    exact hc

/-- Lowercasing undoes uppercasing on a lowercase-fixed character. -/
theorem toLowerC_toUpperC (c : Char) (h : toLowerC c = c) : toLowerC (toUpperC c) = c := by
  by_cases hu : 97 ≤ c.toNat ∧ c.toNat ≤ 122
  · have hn : (toUpperC c).toNat = c.toNat - 32 := by
      rw [toNat_toUpperC, if_pos hu]
    rw [toLowerC, if_pos (by rw [hn]; omega)]
    have hup : (toUpperC c).toNat + 32 = c.toNat := by
      rw [hn]
      omega
    rw [hup, Char.ofNat_toNat]
  · have hc : toUpperC c = c := by
      rw [toUpperC, if_neg hu]
    rw [hc, h]

/-- Lowercasing does not change whitespace-ness. -/
theorem isSpc_toLowerC (c : Char) : isSpc (toLowerC c) = isSpc c := by
  by_cases h : 65 ≤ c.toNat ∧ c.toNat ≤ 90
  · have hn : (toLowerC c).toNat = c.toNat + 32 := by
      rw [toNat_toLowerC, if_pos h]
    rw [isSpc_false_of_letter (c := toLowerC c) (by omega) (by omega),
      isSpc_false_of_letter h.1 (by omega)]
  · have hc : toLowerC c = c := by
      rw [toLowerC, if_neg h]
    rw [hc]

/-- The spelled-out bounds of an ASCII letter. -/
theorem isAlphaC_toNat {c : Char} (h : isAlphaC c = true) :
    (65 ≤ c.toNat ∧ c.toNat ≤ 90) ∨ (97 ≤ c.toNat ∧ c.toNat ≤ 122) := by
  simpa [isAlphaC, Bool.or_eq_true, Bool.and_eq_true, decide_eq_true_eq] using h

/-- A non-letter is fixed by `titleChar`. -/
theorem titleChar_not_alpha (b : Bool) (c : Char) (h : isAlphaC c = false) :
    titleChar b c = c := by
  rw [titleChar, if_neg (by simp [h])]

/-- `titleChar` maps a letter to a letter. -/
theorem toNat_titleChar_alpha (b : Bool) (c : Char) (h : isAlphaC c = true) :
    65 ≤ (titleChar b c).toNat ∧ (titleChar b c).toNat ≤ 122 := by
  rw [titleChar, if_pos (by simp [h])]
  have hc := isAlphaC_toNat h
  cases b
  · rw [if_neg (by simp), toNat_toUpperC]
    split <;> omega
  · rw [if_pos rfl, toNat_toLowerC]
    split <;> omega

/-- `titleChar` does not change whitespace-ness. -/
theorem isSpc_titleChar (b : Bool) (c : Char) : isSpc (titleChar b c) = isSpc c := by
  by_cases h : isAlphaC c = true
  · obtain ⟨h1, h2⟩ := toNat_titleChar_alpha b c h
    have hc := isAlphaC_toNat h
    rw [isSpc_false_of_letter h1 h2,
      isSpc_false_of_letter (by rcases hc with h3 | h3 <;> omega)
        (by rcases hc with h3 | h3 <;> omega)]
  · rw [titleChar_not_alpha b c (Bool.not_eq_true _ ▸ h)]

/-- `titleChar` fixes the space character. -/
theorem titleChar_space (b : Bool) : titleChar b ' ' = ' ' := by
  cases b <;> decide

/-- Lowercasing undoes `titleChar` on a lowercase-fixed character. -/
theorem toLowerC_titleChar (b : Bool) (c : Char) (h : toLowerC c = c) :
    toLowerC (titleChar b c) = c := by
  by_cases ha : isAlphaC c = true
  · rw [titleChar, if_pos (by simp [ha])]
    cases b
    · rw [if_neg (by simp)]
      exact toLowerC_toUpperC c h
    · rw [if_pos rfl, toLowerC_toLowerC]
      exact h
  · rw [titleChar_not_alpha b c (Bool.not_eq_true _ ▸ ha)]
    exact h

/-- `dropWhile isSpc` leaves no leading whitespace. -/
theorem noLead_dropWhile (l : List Char) : noLead (l.dropWhile isSpc) = true := by
  induction l with
  | nil => rfl
  | cons c cs ih =>
    rw [List.dropWhile_cons]
    split
    · exact ih
    · rename_i h
      simp only [noLead, Bool.not_eq_true']
      exact Bool.eq_false_iff.mpr h

/-- `dropTrail` keeps the head, hence preserves `noLead`. -/
theorem noLead_dropTrail (p : Char → Bool) (l : List Char)
    (h : noLead l = true) : noLead (dropTrail p l) = true := by
  cases l with
  | nil => rfl
  | cons c cs =>
    simp only [dropTrail]
    split
    · rfl
    · exact h

/-- `dropTrail isSpc` leaves no trailing whitespace. -/
theorem noTrail_dropTrail (l : List Char) : noTrail (dropTrail isSpc l) = true := by
  induction l with
  | nil => rfl
  | cons c cs ih =>
    simp only [dropTrail]
    split
    · rfl
    · rename_i h
      cases hds : dropTrail isSpc cs with
      | nil =>
        rw [hds] at h
        simp only [List.isEmpty_nil, Bool.true_and] at h
        simp only [noTrail, Bool.not_eq_true']
        exact Bool.eq_false_iff.mpr h
      | cons d ds =>
        rw [hds] at ih
        simpa only [noTrail] using ih

/-- Unfolding: a whitespace head inside a run is dropped. -/
theorem collapseAux_cons_of_spc_true (c : Char) (cs : List Char) (h : isSpc c = true) :
    collapseAux true (c :: cs) = collapseAux true cs := by
  simp [collapseAux, h]

/-- Unfolding: a whitespace head outside a run becomes one space. -/
theorem collapseAux_cons_of_spc_false (c : Char) (cs : List Char) (h : isSpc c = true) :
    collapseAux false (c :: cs) = ' ' :: collapseAux true cs := by
  simp [collapseAux, h]

/-- Unfolding: a non-whitespace head is kept and ends any run. -/
theorem collapseAux_cons_of_not_spc (r : Bool) (c : Char) (cs : List Char)
    (h : isSpc c = false) :
    collapseAux r (c :: cs) = c :: collapseAux false cs := by
  simp [collapseAux, h]

/-- Collapsing preserves the absence of a leading space (outside a run). -/
theorem noLead_collapseAux_false (l : List Char) (h : noLead l = true) :
    noLead (collapseAux false l) = true := by
  cases l with
  | nil => rfl
  | cons c cs =>
    have hc : isSpc c = false := by
      simpa only [noLead, Bool.not_eq_true'] using h
    rw [collapseAux_cons_of_not_spc false c cs hc]
    simp only [noLead, hc, Bool.not_false]

/-- Inside a run, collapsing always produces a space-free head. -/
theorem noLead_collapseAux_true (l : List Char) : noLead (collapseAux true l) = true := by
  induction l with
  | nil => rfl
  | cons c cs ih =>
    by_cases hc : isSpc c = true
    · rw [collapseAux_cons_of_spc_true c cs hc]
      exact ih
    · have hc' : isSpc c = false := Bool.eq_false_iff.mpr hc
      rw [collapseAux_cons_of_not_spc true c cs hc']
      simp only [noLead, hc', Bool.not_false]

/-- A list with a non-whitespace last character collapses to a nonempty
list. -/
theorem collapseAux_ne_nil (l : List Char) (r : Bool)
    (h : noTrail l = true) (hne : l ≠ []) : collapseAux r l ≠ [] := by
  induction l generalizing r with
  | nil => exact absurd rfl hne
  | cons c cs ih =>
    by_cases hc : isSpc c = true
    · cases cs with
      | nil =>
        rw [show noTrail [c] = !isSpc c from rfl, hc] at h
        cases h
      | cons d ds =>
        have hcs : noTrail (d :: ds) = true := h
        cases r
        · rw [collapseAux_cons_of_spc_false c _ hc]
          intro hx
          cases hx
        · rw [collapseAux_cons_of_spc_true c _ hc]
          exact ih true hcs (by intro hx; cases hx)
    · have hc' : isSpc c = false := Bool.eq_false_iff.mpr hc
      rw [collapseAux_cons_of_not_spc r c cs hc']
      intro hx
      cases hx

/-- Collapsing preserves the absence of trailing whitespace. -/
theorem noTrail_collapseAux (l : List Char) (r : Bool) (h : noTrail l = true) :
    noTrail (collapseAux r l) = true := by
  induction l generalizing r with
  | nil => rfl
  | cons c cs ih =>
    by_cases hc : isSpc c = true
    · cases cs with
      | nil =>
        rw [show noTrail [c] = !isSpc c from rfl, hc] at h
        cases h
      | cons d ds =>
        have hcs : noTrail (d :: ds) = true := h
        cases r
        · rw [collapseAux_cons_of_spc_false c _ hc]
          have hne := collapseAux_ne_nil (d :: ds) true hcs (by intro hx; cases hx)
          cases hY : collapseAux true (d :: ds) with
          | nil => exact absurd hY hne
          | cons y ys =>
            have ht := ih true hcs
            rw [hY] at ht
            exact ht
        · rw [collapseAux_cons_of_spc_true c _ hc]
          exact ih true hcs
    · have hc' : isSpc c = false := Bool.eq_false_iff.mpr hc
      rw [collapseAux_cons_of_not_spc r c cs hc']
      cases cs with
      | nil =>
        simp [collapseAux, noTrail, hc']
      | cons d ds =>
        have hcs : noTrail (d :: ds) = true := h
        have hne := collapseAux_ne_nil (d :: ds) false hcs (by intro hx; cases hx)
        cases hY : collapseAux false (d :: ds) with
        | nil => exact absurd hY hne
        | cons y ys =>
          have ht := ih false hcs
          rw [hY] at ht
          exact ht

/-- Collapsed output has single spaces followed by non-whitespace. -/
theorem spacesOk_collapseAux (l : List Char) (r : Bool) :
    spacesOk (collapseAux r l) = true := by
  induction l generalizing r with
  | nil => rfl
  | cons c cs ih =>
    by_cases hc : isSpc c = true
    · cases r
      · rw [collapseAux_cons_of_spc_false c cs hc]
        have h1 := noLead_collapseAux_true cs
        have h2 := ih true
        simp [spacesOk, h1, h2]
      · rw [collapseAux_cons_of_spc_true c cs hc]
        exact ih true
    · have hc' : isSpc c = false := Bool.eq_false_iff.mpr hc
      rw [collapseAux_cons_of_not_spc r c cs hc']
      have h2 := ih false
      simp [spacesOk, hc', h2]

/-- A list with no leading whitespace is fixed by `dropWhile isSpc`. -/
theorem dropWhile_eq_self_of_noLead (l : List Char) (h : noLead l = true) :
    l.dropWhile isSpc = l := by
  cases l with
  | nil => rfl
  | cons c cs =>
    have hc : isSpc c = false := by
      simpa only [noLead, Bool.not_eq_true'] using h
    rw [List.dropWhile_cons, if_neg (by simp [hc])]

/-- A list with no trailing whitespace is fixed by `dropTrail isSpc`. -/
theorem dropTrail_eq_self_of_noTrail (l : List Char) (h : noTrail l = true) :
    dropTrail isSpc l = l := by
  induction l with
  | nil => rfl
  | cons c cs ih =>
    cases cs with
    | nil =>
      have hc : isSpc c = false := by
        simpa only [noTrail, Bool.not_eq_true'] using h
      simp [dropTrail, hc]
    | cons d ds =>
      have hcs : noTrail (d :: ds) = true := h
      have hrec := ih hcs
      show (if ((dropTrail isSpc (d :: ds)).isEmpty && isSpc c) = true then []
        else c :: dropTrail isSpc (d :: ds)) = c :: d :: ds
      rw [hrec, if_neg (by simp)]

/-- With a non-whitespace head, the collapse state does not matter. -/
theorem collapseAux_true_eq_false (l : List Char) (h : noLead l = true) :
    collapseAux true l = collapseAux false l := by
  cases l with
  | nil => rfl
  | cons c cs =>
    have hc : isSpc c = false := by
      simpa only [noLead, Bool.not_eq_true'] using h
    rw [collapseAux_cons_of_not_spc true c cs hc, collapseAux_cons_of_not_spc false c cs hc]

/-- A list whose whitespace is single spaces followed by non-whitespace is
fixed by collapsing. -/
theorem collapseAux_eq_self_of_spacesOk (l : List Char) (h : spacesOk l = true) :
    collapseAux false l = l := by
  induction l with
  | nil => rfl
  | cons c cs ih =>
    simp only [spacesOk, Bool.and_eq_true, Bool.or_eq_true, Bool.not_eq_true',
      decide_eq_true_eq] at h
    obtain ⟨hhead, htail⟩ := h
    by_cases hc : isSpc c = true
    · rcases hhead with hf | ⟨hsp, hnl⟩
      · rw [hc] at hf
        cases hf
      · subst hsp
        rw [collapseAux_cons_of_spc_false ' ' cs hc,
          collapseAux_true_eq_false cs hnl, ih htail]
    · have hc' : isSpc c = false := Bool.eq_false_iff.mpr hc
      rw [collapseAux_cons_of_not_spc false c cs hc', ih htail]

/-- Title-casing preserves the absence of leading whitespace. -/
theorem noLead_titleAux (b : Bool) (l : List Char) (h : noLead l = true) :
    noLead (titleAux b l) = true := by
  cases l with
  | nil => rfl
  | cons c cs =>
    have hc : isSpc c = false := by
      simpa only [noLead, Bool.not_eq_true'] using h
    simp only [titleAux, noLead, isSpc_titleChar, hc, Bool.not_false]

/-- Title-casing preserves the absence of trailing whitespace. -/
theorem noTrail_titleAux (b : Bool) (l : List Char) (h : noTrail l = true) :
    noTrail (titleAux b l) = true := by
  induction l generalizing b with
  | nil => rfl
  | cons c cs ih =>
    cases cs with
    | nil =>
      have hc : isSpc c = false := by
        simpa only [noTrail, Bool.not_eq_true'] using h
      simp only [titleAux, noTrail, isSpc_titleChar, hc, Bool.not_false]
    | cons d ds =>
      have hcs : noTrail (d :: ds) = true := h
      simpa only [titleAux, noTrail] using ih (isAlphaC c) hcs

/-- Title-casing preserves the single-space discipline. -/
theorem spacesOk_titleAux (b : Bool) (l : List Char) (h : spacesOk l = true) :
    spacesOk (titleAux b l) = true := by
  induction l generalizing b with
  | nil => rfl
  | cons c cs ih =>
    simp only [spacesOk, Bool.and_eq_true, Bool.or_eq_true, Bool.not_eq_true',
      decide_eq_true_eq] at h
    obtain ⟨hhead, htail⟩ := h
    simp only [titleAux, spacesOk, Bool.and_eq_true, Bool.or_eq_true, Bool.not_eq_true',
      decide_eq_true_eq, isSpc_titleChar]
    constructor
    · rcases hhead with hf | ⟨hsp, hnl⟩
      · exact Or.inl hf
      · subst hsp
        exact Or.inr ⟨titleChar_space b, noLead_titleAux (isAlphaC ' ') cs hnl⟩
    · exact ih (isAlphaC c) htail

/-- Lowercasing a title-cased lowercase-fixed list recovers the list. -/
theorem map_toLowerC_titleAux (b : Bool) (l : List Char) (h : lowFixed l = true) :
    (titleAux b l).map toLowerC = l := by
  induction l generalizing b with
  | nil => rfl
  | cons c cs ih =>
    simp only [lowFixed, List.all_cons, Bool.and_eq_true, beq_iff_eq] at h
    obtain ⟨hc, hcs⟩ := h
    simp only [titleAux, List.map_cons]
    rw [toLowerC_titleChar b c hc, ih (isAlphaC c) (by simpa [lowFixed] using hcs)]

/-- Lowercasing is idempotent list-wise. -/
theorem lowFixed_map_toLowerC (l : List Char) : lowFixed (l.map toLowerC) = true := by
  induction l with
  | nil => rfl
  | cons c cs ih =>
    simp only [List.map_cons, lowFixed, List.all_cons, Bool.and_eq_true, beq_iff_eq]
    exact ⟨toLowerC_toLowerC c, by simpa [lowFixed] using ih⟩

/-- Lowercasing preserves the absence of leading whitespace. -/
theorem noLead_map_toLowerC (l : List Char) (h : noLead l = true) :
    noLead (l.map toLowerC) = true := by
  cases l with
  | nil => rfl
  | cons c cs =>
    have hc : isSpc c = false := by
      simpa only [noLead, Bool.not_eq_true'] using h
    simp only [List.map_cons, noLead, isSpc_toLowerC, hc, Bool.not_false]

/-- Lowercasing preserves the absence of trailing whitespace. -/
theorem noTrail_map_toLowerC (l : List Char) (h : noTrail l = true) :
    noTrail (l.map toLowerC) = true := by
  induction l with
  | nil => rfl
  | cons c cs ih =>
    cases cs with
    | nil =>
      have hc : isSpc c = false := by
        simpa only [noTrail, Bool.not_eq_true'] using h
      simp only [List.map_cons, List.map_nil, noTrail, isSpc_toLowerC, hc, Bool.not_false]
    | cons d ds =>
      have hcs : noTrail (d :: ds) = true := h
      simpa only [List.map_cons, noTrail] using ih hcs

/-- Lowercasing preserves the single-space discipline. -/
theorem spacesOk_map_toLowerC (l : List Char) (h : spacesOk l = true) :
    spacesOk (l.map toLowerC) = true := by
  induction l with
  | nil => rfl
  | cons c cs ih =>
    simp only [spacesOk, Bool.and_eq_true, Bool.or_eq_true, Bool.not_eq_true',
      decide_eq_true_eq] at h
    obtain ⟨hhead, htail⟩ := h
    simp only [List.map_cons, spacesOk, Bool.and_eq_true, Bool.or_eq_true,
      Bool.not_eq_true', decide_eq_true_eq, isSpc_toLowerC]
    constructor
    · rcases hhead with hf | ⟨hsp, hnl⟩
      · exact Or.inl hf
      · subst hsp
        exact Or.inr ⟨by decide, noLead_map_toLowerC cs hnl⟩
    · exact ih htail

/-- The preprocessing of the disposition normalizer always yields a trimmed,
space-collapsed, lowercase list. -/
theorem prepList_props (l : List Char) :
    noLead (SlowMemo10.prepList l) = true ∧ noTrail (SlowMemo10.prepList l) = true
  ∧ spacesOk (SlowMemo10.prepList l) = true ∧ lowFixed (SlowMemo10.prepList l) = true := by
  rw [SlowMemo10.prepList, collapseWS, pyStrip]
  refine ⟨?_, ?_, ?_, ?_⟩
  · exact noLead_map_toLowerC _ (noLead_collapseAux_false _
      (noLead_dropTrail _ _ (noLead_dropWhile l)))
  · exact noTrail_map_toLowerC _ (noTrail_collapseAux _ false (noTrail_dropTrail _))
  · exact spacesOk_map_toLowerC _ (spacesOk_collapseAux _ false)
  · exact lowFixed_map_toLowerC _

/-- On a trimmed, collapsed, lowercase list, preprocessing inverts
title-casing. -/
theorem prepList_titleAux (t : List Char)
    (h1 : noLead t = true) (h2 : noTrail t = true)
    (h3 : spacesOk t = true) (h4 : lowFixed t = true) :
    SlowMemo10.prepList (titleAux false t) = t := by
  rw [SlowMemo10.prepList, collapseWS, pyStrip,
    dropWhile_eq_self_of_noLead _ (noLead_titleAux false t h1),
    dropTrail_eq_self_of_noTrail _ (noTrail_titleAux false t h2),
    collapseAux_eq_self_of_spacesOk _ (spacesOk_titleAux false t h3),
    map_toLowerC_titleAux false t h4]

/-- A successful association-list lookup is a member. -/
theorem lookup_mem {α β : Type} [BEq α] [LawfulBEq α] {l : List (α × β)} {k : α} {v : β}
    (h : l.lookup k = some v) : (k, v) ∈ l := by
  induction l with
  | nil => cases h
  | cons p l ih =>
    obtain ⟨a, b⟩ := p
    by_cases hk : (k == a) = true
    · have hka : k = a := eq_of_beq hk
      subst hka
      have hbv : b = v := by
        simpa [List.lookup] using h
      subst hbv
      exact List.mem_cons_self _ _
    · have h' : l.lookup k = some v := by
        simpa [List.lookup, Bool.eq_false_iff.mpr hk] using h
      exact List.mem_cons_of_mem _ (ih h')

/-- On a preprocessed string that misses the synonym table and the allowed
set, the normalizer's title-cased output is a fixpoint of the normalizer. -/
theorem normElem_prepped (t : String)
    (h1 : noLead t.data = true) (h2 : noTrail t.data = true)
    (h3 : spacesOk t.data = true) (h4 : lowFixed t.data = true)
    (hlook : SlowMemo10.canonPairs.lookup t = none)
    (hcon : SlowMemo10.allowed.contains t = false)
    (hne : t ≠ "") :
    SlowMemo10.normElem (titleStr t) = titleStr t := by
  have hprep : SlowMemo10.prepList (titleStr t).data = t.data :=
    prepList_titleAux t.data h1 h2 h3 h4
  have heta : String.mk t.data = t := rfl
  rw [SlowMemo10.normElem]
  simp only [hprep, heta, hlook, Option.getD_none]
  rw [if_neg (by rw [hcon]; exact Bool.false_ne_true), if_pos (bne_iff_ne.mpr hne)]

/-- Claim C9: the disposition normalizer is idempotent — for every input
string, normalizing twice equals normalizing once; in particular each of the
five canonical labels is returned unchanged. -/
theorem C9_normalize_idempotent (x : String) :
    SlowMemo10.normElem (SlowMemo10.normElem x) = SlowMemo10.normElem x
  ∧ ∀ y ∈ SlowMemo10.allowed, SlowMemo10.normElem y = y := by
  refine ⟨?_, by decide⟩
  obtain ⟨h1, h2, h3, h4⟩ := prepList_props x.data
  cases hlook : SlowMemo10.canonPairs.lookup (String.mk (SlowMemo10.prepList x.data)) with
  | some v =>
    have hmem := lookup_mem hlook
    have hv : SlowMemo10.allowed.contains v = true ∧ SlowMemo10.normElem v = v := by
      simp only [SlowMemo10.canonPairs, List.mem_cons, List.not_mem_nil, or_false,
        Prod.mk.injEq] at hmem
      rcases hmem with ⟨-, h⟩ | ⟨-, h⟩ | ⟨-, h⟩ | ⟨-, h⟩ | ⟨-, h⟩ | ⟨-, h⟩ | ⟨-, h⟩
        | ⟨-, h⟩ | ⟨-, h⟩ | ⟨-, h⟩ | ⟨-, h⟩ <;> subst h <;> exact ⟨by decide, by decide⟩
    have hx : SlowMemo10.normElem x = v := by
      rw [SlowMemo10.normElem]
      simp only [hlook, Option.getD_some]
      rw [if_pos hv.1]
    rw [hx]
    exact hv.2
  | none =>
    by_cases hcon : SlowMemo10.allowed.contains (String.mk (SlowMemo10.prepList x.data)) = true
    · exfalso
      have hmemT : String.mk (SlowMemo10.prepList x.data) ∈ SlowMemo10.allowed := by
        simpa using hcon
      have h5 : lowFixed (String.data (String.mk (SlowMemo10.prepList x.data))) = true := h4
      simp only [SlowMemo10.allowed, List.mem_cons, List.not_mem_nil, or_false] at hmemT
      rcases hmemT with h | h | h | h | h <;> rw [h] at h5 <;> exact absurd h5 (by decide)
    · by_cases hemp : String.mk (SlowMemo10.prepList x.data) = ""
      · exfalso
        rw [hemp] at hlook
        exact absurd hlook (by decide)
      · have hcon' : SlowMemo10.allowed.contains (String.mk (SlowMemo10.prepList x.data)) = false :=
          Bool.eq_false_iff.mpr hcon
        have hx : SlowMemo10.normElem x = titleStr (String.mk (SlowMemo10.prepList x.data)) := by
          rw [SlowMemo10.normElem]
          simp only [hlook, Option.getD_none]
          rw [if_neg (by rw [hcon']; exact Bool.false_ne_true), if_pos (bne_iff_ne.mpr hemp)]
        rw [hx]
        exact normElem_prepped (String.mk (SlowMemo10.prepList x.data)) h1 h2 h3 h4
          hlook hcon' hemp

/-- Claim C9 (witness): idempotence evaluated at a concrete free-text label
and a concrete canonical label. -/
theorem C9_witness :
    SlowMemo10.normElem (SlowMemo10.normElem "weird  status") = SlowMemo10.normElem "weird  status"
  ∧ SlowMemo10.normElem "RTV - Melt" = "RTV - Melt" :=
  ⟨(C9_normalize_idempotent "weird  status").1,
   (C9_normalize_idempotent "anything").2 "RTV - Melt" (by decide)⟩

end StreamlitDash
